import Mathlib

/-!
Shallow embedding of the core execution engine of the `pythia` interpreter
(`src/interp.rs`, `src/interp/prelude.rs`), together with proofs settling the
frozen claims about it.

Conventions used throughout:
  * Rust `u32` / `u16` values are modelled as `Nat` with explicit `% 2^32`
    (resp. bounds) where wrap-around matters.
  * Rust `i64` logical clocks (`RawLClk`) are modelled as `Int`; the nil clock
    is `Int.minValue` of i64, written `lclkNil`.
  * Rust hash maps are modelled as function maps `Nat -> Option _` (only
    point lookups, inserts and removes are performed on them); the one ordered
    map (`LClkInvalidSet.inner : BTreeMap<LClk, LClk>`) is modelled as an
    association list sorted by key, since the source performs ordered
    predecessor queries on it.
  * A Rust function that can panic is modelled with an `Option`/`Except`
    result whose `none`/`error` case marks the panic.
-/

namespace Pythia

/-- Function-map model of `FxHashMap<Nat-keyed, V>`: lookup is application. -/
def NMap (α : Type) : Type := Nat → Option α

/-- Map insert (`HashMap::insert`, overwriting). -/
def mset {α : Type} (m : NMap α) (k : Nat) (v : α) : NMap α :=
  fun x => if x = k then some v else m x

/-- Map remove (`HashMap::remove`). -/
def mdel {α : Type} (m : NMap α) (k : Nat) : NMap α :=
  fun x => if x = k then none else m x

/-- Empty map. -/
def mnil {α : Type} : NMap α := fun _ => none

@[simp] theorem mset_same {α : Type} (m : NMap α) (k : Nat) (v : α) :
    mset m k v k = some v := by simp [mset]

@[simp] theorem mset_other {α : Type} (m : NMap α) (k x : Nat) (v : α) (h : x ≠ k) :
    mset m k v x = m x := by simp [mset, h]

@[simp] theorem mdel_same {α : Type} (m : NMap α) (k : Nat) : mdel m k k = none := by
  simp [mdel]

@[simp] theorem mdel_other {α : Type} (m : NMap α) (k x : Nat) (h : x ≠ k) :
    mdel m k x = m x := by simp [mdel, h]

/-! ## Handles (`SNum`, interp.rs lines 38-142)

A handle is a raw `u32`; the key is the high 24 bits (`raw >> SNUM_TAG_BITS`
with `SNUM_TAG_BITS = 8`) and the sort tag the low 8 bits
(`raw & SNUM_TAG_MASK` with `SNUM_TAG_MASK = 0xff`).  We write the shift and
mask as division and remainder by `2^8`, which agree on `Nat`. -/

structure SNum where
  raw : Nat
deriving DecidableEq, Repr

/-- Key of a handle: `self.0 >> SNUM_TAG_BITS` (`SNum::_key`). -/
def SNum.key (x : SNum) : Nat := x.raw / 2 ^ 8

/-- Sort tag of a handle: `self.0 & SNUM_TAG_MASK` (`SNum::_tag`). -/
def SNum.tag (x : SNum) : Nat := x.raw % 2 ^ 8

/-- Equality test of handles (`impl PartialEq for SNum`, interp.rs 95-113).
`none` models the `bug: tag sort mismatch` panic on the fall-through path.
The source compares `ltag ^ rtag` against `0`, `ltag` and `rtag`. -/
def SNum.beq (l r : SNum) : Option Bool :=
  let lkey := l.raw / 2 ^ 8
  let rkey := r.raw / 2 ^ 8
  if lkey ≠ rkey then some false
  else
    let ltag := l.raw % 2 ^ 8
    let rtag := r.raw % 2 ^ 8
    let lrcmp := ltag ^^^ rtag
    if lrcmp = 0 then some true
    else if lrcmp = ltag ∨ lrcmp = rtag then some true
    else none

/-- Ordering of handles (`impl Ord for SNum`, interp.rs 124-142). On equal
keys the source evaluates `self != rhs` (which may itself abort with a tag
sort mismatch) and aborts with `bug` when it is true; `none` models both
aborts. -/
def SNum.cmpo (l r : SNum) : Option Ordering :=
  let lkey := l.raw / 2 ^ 8
  let rkey := r.raw / 2 ^ 8
  if lkey = rkey then
    match SNum.beq l r with
    | none => none
    | some false => none
    | some true => some Ordering.eq
  else if lkey < rkey then some Ordering.lt
  else some Ordering.gt

/-! ## Handle allocator (`SNumCtr`, interp.rs 260-293)

The allocator state is the raw `u32` counter `rctr`.  `_fresh` increments the
counter and returns the new count shifted into the key bits; both the
increment and the shift wrap at `2^32` (u32 semantics; the silent information
loss is the `<< 8` shift dropping the top 8 bits of the count once it reaches
`2^24`). -/

/-- `SNumCtr::_reset`: set the counter to `new_x._into_raw() >> SNUM_TAG_BITS`. -/
def SNumCtr.reset (x : SNum) : Nat := x.raw / 2 ^ 8

/-- `SNumCtr::_fresh`: returns the fresh (untagged) handle and the new counter. -/
def SNumCtr.fresh (rctr : Nat) : SNum × Nat :=
  let next := (rctr + 1) % 2 ^ 32
  (⟨next * 2 ^ 8 % 2 ^ 32⟩, next)

/-- `SNumCtr::_get`: current watermark as an untagged handle. -/
def SNumCtr.get (rctr : Nat) : SNum := ⟨rctr * 2 ^ 8 % 2 ^ 32⟩

/-- Counter value after `n` consecutive `_fresh` calls starting from `rctr`. -/
def SNumCtr.iter (rctr : Nat) : Nat → Nat
  | 0 => rctr
  | n + 1 => (SNumCtr.fresh (SNumCtr.iter rctr n)).2

/-- Key of the handle returned by the `(n+1)`-st `_fresh` call after the
counter is `rctr`. -/
def SNumCtr.freshKey (rctr n : Nat) : Nat :=
  (SNumCtr.fresh (SNumCtr.iter rctr n)).1.key

/-! ## Logical clocks and the invalid-clock set (interp.rs 144-188, 325-381) -/

/-- Logical clock (`LClk` wraps `RawLClk = i64`). -/
abbrev LClk := Int

/-- `<LClk as Nil>::nil()` is `i64::min_value()`. -/
def lclkNil : LClk := -(2 ^ 63)

/-- A half-open clock interval `[lb, ub)` (`LClkRange`). -/
structure LClkRange where
  lb : LClk
  ub : LClk
deriving DecidableEq, Repr

/-- The ordered map `inner : BTreeMap<LClk, LClk>` of the invalid set,
modelled as an association list strictly sorted by key (ascending). -/
structure LClkInvalidSet where
  inner : List (LClk × LClk)
deriving DecidableEq, Repr

/-- Greatest entry with key `≤ v` — the `self.inner.range(..= v).next_back()`
query of a `BTreeMap`, on the sorted association list. -/
def btreeRangeLast : List (LClk × LClk) → LClk → Option (LClk × LClk)
  | [], _ => none
  | (k, u) :: rest, v =>
    if k ≤ v then
      match btreeRangeLast rest v with
      | none => some (k, u)
      | some r => some r
    else none

/-- `BTreeMap::insert` on the sorted association list (overwrites an equal
key, keeps the list sorted). -/
def btreeInsert : List (LClk × LClk) → LClk → LClk → List (LClk × LClk)
  | [], k, v => [(k, v)]
  | (k', v') :: rest, k, v =>
    if k < k' then (k, v) :: (k', v') :: rest
    else if k = k' then (k, v) :: rest
    else (k', v') :: btreeInsert rest k v

/-- `BTreeMap::remove` on the sorted association list. -/
def btreeRemove : List (LClk × LClk) → LClk → List (LClk × LClk)
  | [], _ => []
  | (k', v') :: rest, k =>
    if k = k' then rest else (k', v') :: btreeRemove rest k

/-- `LClkInvalidSet::_find` (interp.rs 369-380). -/
def LClkInvalidSet.find (s : LClkInvalidSet) (v : LClk) : Option LClkRange :=
  match btreeRangeLast s.inner v with
  | some (lb, ub) => if lb ≤ v ∧ v < ub then some ⟨lb, ub⟩ else none
  | none => none

/-- `LClkInvalidSet::_contains` (interp.rs 365-367). -/
def LClkInvalidSet.contains (s : LClkInvalidSet) (v : LClk) : Bool :=
  (s.find v).isSome

/-- `LClkInvalidSet::_insert` (interp.rs 338-363). Fails (`Err(())`) iff
`lb >= ub`; otherwise updates `inner` by cases on `_find(lb)` / `_find(ub)`. -/
def LClkInvalidSet.insert (s : LClkInvalidSet) (lb ub : LClk) :
    Except Unit LClkInvalidSet :=
  if lb ≥ ub then .error ()
  else
    match s.find lb, s.find ub with
    | some lrg, some urg =>
      if lrg.lb ≠ urg.lb then
        .ok ⟨btreeInsert (btreeRemove s.inner urg.lb) lrg.lb urg.ub⟩
      else .ok s
    | some lrg, none => .ok ⟨btreeInsert s.inner lrg.lb ub⟩
    | none, some urg => .ok ⟨btreeInsert (btreeRemove s.inner urg.lb) lb urg.ub⟩
    | none, none => .ok ⟨btreeInsert s.inner lb ub⟩

/-- The empty invalid set (`LClkInvalidSet::default`). -/
def LClkInvalidSet.empty : LClkInvalidSet := ⟨[]⟩

/-! ## Basic facts about the allocator and handles -/

theorem SNumCtr.iter_eq (r : Nat) : ∀ n, r + n < 2 ^ 32 → SNumCtr.iter r n = r + n := by
  intro n
  induction n with
  | zero => intro _; rfl
  | succ k ih =>
    intro h
    have hk : r + k < 2 ^ 32 := by omega
    show (SNumCtr.fresh (SNumCtr.iter r k)).2 = r + (k + 1)
    rw [ih hk]
    show (r + k + 1) % 2 ^ 32 = r + (k + 1)
    rw [Nat.mod_eq_of_lt (by omega)]
    omega

theorem SNumCtr.freshKey_eq (r n : Nat) (h : r + n + 1 < 2 ^ 24) :
    SNumCtr.freshKey r n = r + n + 1 := by
  have h32 : r + n < 2 ^ 32 := by omega
  unfold SNumCtr.freshKey
  rw [SNumCtr.iter_eq r n h32]
  show ((r + n + 1) % 2 ^ 32 * 2 ^ 8 % 2 ^ 32) / 2 ^ 8 = r + n + 1
  rw [Nat.mod_eq_of_lt (by omega)]
  rw [Nat.mod_eq_of_lt (by nlinarith)]
  exact Nat.mul_div_cancel _ (by norm_num)

theorem xor_eq_zero_iff (a b : Nat) : a ^^^ b = 0 ↔ a = b := by
  constructor
  · intro h
    have h2 : a ^^^ (a ^^^ b) = a ^^^ 0 := congrArg (a ^^^ ·) h
    rw [← Nat.xor_assoc, Nat.xor_self, Nat.zero_xor, Nat.xor_zero] at h2
    exact h2.symm
  · intro h; subst h; exact Nat.xor_self a

theorem xor_eq_left_iff (a b : Nat) : a ^^^ b = a ↔ b = 0 := by
  constructor
  · intro h
    have h2 : a ^^^ (a ^^^ b) = a ^^^ a := congrArg (a ^^^ ·) h
    rwa [← Nat.xor_assoc, Nat.xor_self, Nat.zero_xor] at h2
  · intro h; subst h; exact Nat.xor_zero a

theorem xor_eq_right_iff (a b : Nat) : a ^^^ b = b ↔ a = 0 := by
  rw [Nat.xor_comm]; exact xor_eq_left_iff b a

/-! ## Claim C8: handle allocator monotonicity -/

/-- C8 counterexample: the claim says that after `reset(x)` the next `fresh()`
returns a handle with key exactly `x.key + 1`.  Taking `x` with the maximal
24-bit key `2^24 - 1` (raw `(2^24 - 1) << 8`, tag 0), the next `fresh()`
computes `next = 2^24` and the shift `next << 8` wraps to `0` in `u32`, so the
fresh handle's key is `0`, not `x.key + 1 = 2^24`. -/
theorem snumctr_reset_overflow_counterexample :
    (SNumCtr.fresh (SNumCtr.reset ⟨(2 ^ 24 - 1) * 2 ^ 8⟩)).1.key = 0 ∧
    (⟨(2 ^ 24 - 1) * 2 ^ 8⟩ : SNum).key + 1 = 2 ^ 24 ∧ (0 : Nat) ≠ 2 ^ 24 := by
  refine ⟨?_, by norm_num [SNum.key], by norm_num⟩
  show (2 ^ 24 - 1 + 1) % 2 ^ 32 * 2 ^ 8 % 2 ^ 32 / 2 ^ 8 = 0
  norm_num

/-- C8 (amended): as long as the counter stays below the 24-bit key width,
`fresh()` keys strictly increase since the last reset and the first `fresh()`
after `reset(x)` has key `x.key + 1`; at `2^24` the key wraps (see the
counterexample). -/
theorem snumctr_fresh_monotone (x : SNum) (m n : Nat)
    (h : x.key + n + 1 < 2 ^ 24) (hmn : m < n) :
    SNumCtr.freshKey (SNumCtr.reset x) 0 = x.key + 1 ∧
    SNumCtr.freshKey (SNumCtr.reset x) n = x.key + n + 1 ∧
    SNumCtr.freshKey (SNumCtr.reset x) m < SNumCtr.freshKey (SNumCtr.reset x) n := by
  have hr : SNumCtr.reset x = x.key := rfl
  rw [hr]
  refine ⟨SNumCtr.freshKey_eq _ 0 (by omega), SNumCtr.freshKey_eq _ n h, ?_⟩
  rw [SNumCtr.freshKey_eq _ m (by omega), SNumCtr.freshKey_eq _ n h]
  omega

/-- Witness for `snumctr_fresh_monotone` at `x.raw = 2560` (key 10), `m = 0`,
`n = 1`: the fresh keys after reset are 11 then 12. -/
theorem snumctr_fresh_monotone_witness :
    SNumCtr.freshKey (SNumCtr.reset ⟨2560⟩) 0 = 11 ∧
    SNumCtr.freshKey (SNumCtr.reset ⟨2560⟩) 1 = 12 ∧
    SNumCtr.freshKey (SNumCtr.reset ⟨2560⟩) 0 < SNumCtr.freshKey (SNumCtr.reset ⟨2560⟩) 1 := by
  have h := snumctr_fresh_monotone ⟨2560⟩ 0 1 (by norm_num [SNum.key]) (by norm_num)
  simpa [SNum.key] using h

/-! ## Claim C9: handle comparison -/

/-- C9 counterexample: the claim says handle comparison is total (never
aborts) and that handles whose tags are distinct and both sorted compare
unequal.  For raws 257 (key 1, tag 1) and 258 (key 1, tag 2) the source hits
the `bug: tag sort mismatch` panic (modelled as `none`) instead. -/
theorem snum_eq_panics_counterexample :
    SNum.beq ⟨257⟩ ⟨258⟩ = none ∧ (⟨257⟩ : SNum).key = (⟨258⟩ : SNum).key ∧
    (⟨257⟩ : SNum).tag ≠ (⟨258⟩ : SNum).tag := by
  refine ⟨?_, by norm_num [SNum.key], by norm_num [SNum.tag]⟩
  rfl

/-- C9 (amended): two handles compare equal iff their keys match and the tags
are equal or one is unsorted (0); handles with different keys compare unequal;
on matching keys with distinct, both-sorted tags the comparison aborts
(`none`) instead of returning unequal.  Ordering is by key, aborting in the
same tag-mismatch case. -/
theorem snum_eq_characterization (l r : SNum) :
    (SNum.beq l r = some true ↔ l.key = r.key ∧ (l.tag = r.tag ∨ l.tag = 0 ∨ r.tag = 0)) ∧
    (SNum.beq l r = some false ↔ l.key ≠ r.key) ∧
    (SNum.beq l r = none ↔ l.key = r.key ∧ l.tag ≠ r.tag ∧ l.tag ≠ 0 ∧ r.tag ≠ 0) ∧
    (l.key < r.key → SNum.cmpo l r = some Ordering.lt) ∧
    (r.key < l.key → SNum.cmpo l r = some Ordering.gt) ∧
    (l.key = r.key → l.tag = r.tag ∨ l.tag = 0 ∨ r.tag = 0 → SNum.cmpo l r = some Ordering.eq) ∧
    (l.key = r.key → l.tag ≠ r.tag → l.tag ≠ 0 → r.tag ≠ 0 → SNum.cmpo l r = none) := by
  have hbeq : SNum.beq l r =
      (if l.key ≠ r.key then some false
       else if l.tag ^^^ r.tag = 0 then some true
       else if l.tag ^^^ r.tag = l.tag ∨ l.tag ^^^ r.tag = r.tag then some true
       else none) := rfl
  have htags : (l.tag ^^^ r.tag = 0 ↔ l.tag = r.tag) := xor_eq_zero_iff _ _
  have hl : (l.tag ^^^ r.tag = l.tag ↔ r.tag = 0) := xor_eq_left_iff _ _
  have hr : (l.tag ^^^ r.tag = r.tag ↔ l.tag = 0) := xor_eq_right_iff _ _
  have hb : SNum.beq l r =
      (if l.key ≠ r.key then some false
       else if l.tag = r.tag ∨ l.tag = 0 ∨ r.tag = 0 then some true
       else none) := by
    rw [hbeq]
    by_cases hk : l.key = r.key
    · simp only [hk, ne_eq, not_true_eq_false, if_false]
      by_cases ht : l.tag = r.tag
      · simp [htags.mpr ht, ht]
      · have h0 : ¬ l.tag ^^^ r.tag = 0 := fun h => ht (htags.mp h)
        simp only [h0, if_false, ht, false_or]
        by_cases hro : r.tag = 0
        · simp [hl.mpr hro, hro]
        · by_cases hlo : l.tag = 0
          · simp [hr.mpr hlo, hlo, hl, hro]
          · simp [hlo, hro, hl, hr]
    · simp [hk]
  have hcmp : SNum.cmpo l r =
      (if l.key = r.key then
        (match SNum.beq l r with
         | none => none
         | some false => none
         | some true => some Ordering.eq)
       else if l.key < r.key then some Ordering.lt
       else some Ordering.gt) := rfl
  refine ⟨?_, ?_, ?_, ?_, ?_, ?_, ?_⟩
  · rw [hb]; by_cases hk : l.key = r.key <;>
      by_cases ht : l.tag = r.tag ∨ l.tag = 0 ∨ r.tag = 0 <;> simp [hk, ht]
  · rw [hb]; by_cases hk : l.key = r.key <;>
      by_cases ht : l.tag = r.tag ∨ l.tag = 0 ∨ r.tag = 0 <;> simp [hk, ht]
  · rw [hb]; by_cases hk : l.key = r.key <;>
      by_cases ht : l.tag = r.tag ∨ l.tag = 0 ∨ r.tag = 0 <;> simp [hk, ht] <;> tauto
  · intro hlt
    rw [hcmp]
    have : l.key ≠ r.key := Nat.ne_of_lt hlt
    simp [this, hlt]
  · intro hgt
    rw [hcmp]
    have hne : l.key ≠ r.key := Nat.ne_of_gt hgt
    have : ¬ l.key < r.key := by omega
    simp [hne, this]
  · intro hk ht
    rw [hcmp, hb]
    simp [hk, ht]
  · intro hk ht hl0 hr0
    rw [hcmp, hb]
    simp [hk, ht, hl0, hr0]

/-- Witness for `snum_eq_characterization` at raws 257 (key 1, tag 1) and
513 (key 2, tag 1): different keys compare unequal, and ordering is `lt`. -/
theorem snum_eq_characterization_witness :
    SNum.beq ⟨257⟩ ⟨513⟩ = some false ∧ SNum.cmpo ⟨257⟩ ⟨513⟩ = some Ordering.lt := by
  have h := snum_eq_characterization ⟨257⟩ ⟨513⟩
  exact ⟨h.2.1.mpr (by norm_num [SNum.key]), h.2.2.2.1 (by norm_num [SNum.key])⟩

/-! ## Claim C5: invalid-set insertion -/

/-- C5: the claim says that after any sequence of successful inserts,
`contains(c)` is true iff `c` lies in the union of the inserted ranges, the
insertion having merged overlapping ranges.  Inserting `[0,2)`, `[4,6)`, then
`[1,10)` (all succeed), the third insert extends the stored `[0,2)` to
`[0,10)` but fails to remove the interior range `[4,6)`; `_find(7)` then only
inspects the stored range with the greatest lower bound `≤ 7`, namely
`[4,6)`, and `contains(7)` returns `false` although `7 ∈ [1,10)`. -/
theorem invalid_set_insert_drops_interior_range :
    (do
      let s1 ← LClkInvalidSet.empty.insert 0 2
      let s2 ← s1.insert 4 6
      s2.insert 1 10 : Except Unit LClkInvalidSet) = .ok ⟨[(0, 10), (4, 6)]⟩ ∧
    LClkInvalidSet.contains ⟨[(0, 10), (4, 6)]⟩ 7 = false ∧
    ((1 : Int) ≤ 7 ∧ (7 : Int) < 10) := by
  exact ⟨rfl, rfl, by norm_num⟩

/-! ## The versioned unifier (`FastUnifier_`, interp.rs 1586-1748)

Inside the unifier, handles are compared with `==` (equal keys) and `>`
(ordering by key, `SNum::cmp`); we therefore represent handles by their keys
as plain `Nat`.  `root` is a membership predicate (`BTreeSet<SNum>`), and
`next`, `prev`, `tree`, `cache` are function maps. -/

/-- Answer of a find: canonical class root plus the original query instance
(`ENum`, with `_cls`/`_inst` accessors). -/
structure ENum where
  cls : Nat
  inst : Nat
deriving DecidableEq, Repr

/-- The only unifier error (`UnifierCheck::_Bot`). -/
inductive UnifierCheck where
  | bot
deriving DecidableEq, Repr

structure Unifier where
  root : Nat → Bool
  next : NMap Nat
  prev : NMap Nat
  tree : NMap (LClk × Nat)
  cache : NMap (LClk × Nat)

/-- `FastUnifier_::_next`: successor in the class cycle, defaulting to the
query itself when absent. -/
def Unifier.nextOf (u : Unifier) (query : Nat) : Nat := (u.next query).getD query

/-- `FastUnifier_::_prev`. -/
def Unifier.prevOf (u : Unifier) (query : Nat) : Nat := (u.prev query).getD query

/-- `FastUnifier_::_link`: `next[lquery] := rquery; prev[rquery] := lquery`. -/
def Unifier.link (u : Unifier) (lquery rquery : Nat) : Unifier :=
  { u with next := mset u.next lquery rquery, prev := mset u.prev rquery lquery }

/-- `BTreeSet::insert` on the root set. -/
def rooton (s : Nat → Bool) (k : Nat) : Nat → Bool := fun x => if x = k then true else s x

/-- `BTreeSet::remove` on the root set. -/
def rootoff (s : Nat → Bool) (k : Nat) : Nat → Bool := fun x => if x = k then false else s x

/-- The loop of `FastUnifier_::_find` (interp.rs 1668-1706), with an explicit
fuel so the recursion is structural; `none` marks fuel exhaustion (the Rust
loop would diverge only on a cyclic state, which the well-formedness
invariants below exclude).  State per iteration: the mutable `cache`,
`prev_up_clk`, `prev_cursor` and `cursor`. -/
def findLoop (inval : LClkInvalidSet) (tree : NMap (LClk × Nat)) (query : Nat) :
    Nat → NMap (LClk × Nat) → LClk → Nat → Nat →
    Option (Except UnifierCheck (ENum × NMap (LClk × Nat)))
  | 0, _, _, _, _ => none
  | fuel + 1, cache, prevUpClk, prevCursor, cursor =>
    match cache cursor with
    | some (upClk, up) =>
      if inval.contains upClk then
        -- stale cache entry: remove it, then fall through to the tree walk
        let cache1 := mdel cache cursor
        match tree cursor with
        | some (upClk2, up2) =>
          if cursor = up2 then some (.error .bot)
          else findLoop inval tree query fuel cache1 upClk2 cursor up2
        | none => some (.ok (⟨cursor, query⟩, cache1))
      else if cursor = up then some (.error .bot)
      else if prevCursor ≠ cursor then
        -- opportunistic shortcut for the previous node, then advance
        findLoop inval tree query fuel
          (mset cache prevCursor (max prevUpClk upClk, up)) upClk cursor up
      else
        findLoop inval tree query fuel cache prevUpClk prevCursor up
    | none =>
      match tree cursor with
      | some (upClk2, up2) =>
        if cursor = up2 then some (.error .bot)
        else findLoop inval tree query fuel cache upClk2 cursor up2
      | none => some (.ok (⟨cursor, query⟩, cache))

/-- `FastUnifier_::_find` (interp.rs 1660-1707).  A query already in `root`
returns immediately; otherwise the loop walks `cache` then `tree`.  The fuel
`query + 1` is enough on any well-formed state (every edge descends). -/
def Unifier.find (u : Unifier) (inval : LClkInvalidSet) (clk : LClk) (query : Nat) :
    Except UnifierCheck (ENum × Unifier) :=
  if u.root query then .ok (⟨query, query⟩, u)
  else
    match findLoop inval u.tree query (query + 1) u.cache clk query query with
    | none => .error .bot
    | some (.error e) => .error e
    | some (.ok (r, cache2)) => .ok (r, { u with cache := cache2 })

/-- Saved state of a `Unify` undo entry (`UnifyUndoState_`). -/
structure UnifyUndoState where
  oroot : Nat
  nroot : Nat
  onext : Nat
  nprev : Nat
  otree : Option (LClk × Nat)
deriving DecidableEq, Repr

/-- Undo-log entry variants (`UndoLogEntryInner_`, interp.rs 2054-2073).
Handles, idents, cells and literal strings are represented by their keys. -/
inductive UndoEntry where
  | unify (state : UnifyUndoState)
  | allocCell (x : Nat)
  | linkCells (a b c d : Nat)
  | loadFunction (x : Nat)
  | loadObjectCls (x : Nat)
  | loadObjectVal (x : Nat)
  | loadRawSpan (x : Nat)
  | loadRawMod (x : Nat)
  | loadRawStm (x : Nat)
  | loadRawTerm (x : Nat)
  | loadRawIdent (x : Nat)
  | loadRawLit (x : Nat)
  | loadRawLitStr (x : Nat)
  | bindIdent (id : Nat) (prevX : Nat)
  | bindLitStr (litStr : Nat) (prevX : Option Nat)
  | rebindIdent (id : Nat) (a b : Nat)
  | putTerm (x : Nat)
  | putVal (x : Nat)
deriving DecidableEq, Repr

/-- A clock-stamped log entry (`LogEntry_`; the only `LogEntryRef_` variant
is `Undo`). -/
structure LogEntry where
  clk : LClk
  val : UndoEntry
deriving DecidableEq, Repr

/-- Body of `FastUnifier_::_unify` after the `lquery == rquery` and swap
checks (interp.rs 1718-1746); called with the arguments already in ascending
order by the wrapper below. -/
def Unifier.unifyCore (u : Unifier) (log : List LogEntry) (inval : LClkInvalidSet)
    (clk : LClk) (lquery rquery : Nat) :
    Except UnifierCheck (Nat × Unifier × List LogEntry) :=
  match u.find inval clk lquery with
  | .error e => .error e
  | .ok (lRoot, u1) =>
    match u1.find inval clk rquery with
    | .error e => .error e
    | .ok (rRoot, u2) =>
      if lRoot.cls = rRoot.cls then .ok (rRoot.cls, u2, log)
      else
        -- invariant unification (lexicographic ordered roots)
        let or2 := if lRoot.cls > rRoot.cls then lRoot.cls else rRoot.cls
        let nr2 := if lRoot.cls > rRoot.cls then rRoot.cls else lRoot.cls
        let onext := u2.nextOf or2
        let nprev := u2.prevOf nr2
        let u3 := (u2.link or2 nr2).link nprev onext
        let otree := u2.tree or2
        let u4 : Unifier :=
          { u3 with
            root := rooton (rootoff u3.root or2) nr2,
            tree := mset u3.tree or2 (clk, nr2),
            cache := mset u3.cache or2 (clk, nr2) }
        .ok (nr2, u4, log ++ [⟨clk, .unify ⟨or2, nr2, onext, nprev, otree⟩⟩])

/-- `FastUnifier_::_unify` (interp.rs 1710-1747).  Equal queries return the
class of `rquery`; otherwise the source recurses once with swapped arguments
when `lquery > rquery`, which we inline. -/
def Unifier.unify (u : Unifier) (log : List LogEntry) (inval : LClkInvalidSet)
    (clk : LClk) (lquery rquery : Nat) :
    Except UnifierCheck (Nat × Unifier × List LogEntry) :=
  if lquery = rquery then
    match u.find inval clk rquery with
    | .error e => .error e
    | .ok (root, u1) => .ok (root.cls, u1, log)
  else if lquery > rquery then u.unifyCore log inval clk rquery lquery
  else u.unifyCore log inval clk lquery rquery

/-! ### Well-formedness of unifier states and the root of the tree walk -/

/-- Root of the union-find tree reached by following parent links, with fuel
(sufficient fuel is `k + 1` when every edge descends). -/
def treeRootF (tree : NMap (LClk × Nat)) : Nat → Nat → Nat
  | 0, k => k
  | f + 1, k =>
    match tree k with
    | none => k
    | some (_, p) => treeRootF tree f p

/-- Root reached by following `tree` parent links from `k`. -/
def treeRoot (tree : NMap (LClk × Nat)) (k : Nat) : Nat := treeRootF tree (k + 1) k

/-- Every edge of a map descends in handle order (true of `tree` and `cache`:
unions always make the larger root a child of the smaller one). -/
def EdgesDesc (m : NMap (LClk × Nat)) : Prop :=
  ∀ k c p, m k = some (c, p) → p < k

/-- Members of the root set have no tree entry. -/
def RootsClean (root : Nat → Bool) (tree : NMap (LClk × Nat)) : Prop :=
  ∀ k, root k = true → tree k = none

/-- Cache coherence: every cache entry whose stamp is not invalidated points
to a node with the same tree root as its key. -/
def CacheCoh (inval : LClkInvalidSet) (tree cache : NMap (LClk × Nat)) : Prop :=
  ∀ k c p, cache k = some (c, p) → inval.contains c = false →
    treeRoot tree p = treeRoot tree k

/-- Well-formed unifier state relative to an invalid set. -/
structure UnifWF (u : Unifier) (inval : LClkInvalidSet) : Prop where
  treeDesc : EdgesDesc u.tree
  cacheDesc : EdgesDesc u.cache
  rootsClean : RootsClean u.root u.tree
  cacheCoh : CacheCoh inval u.tree u.cache

theorem treeRootF_congr {tree : NMap (LClk × Nat)} (hd : EdgesDesc tree) :
    ∀ k f₁ f₂, k < f₁ → k < f₂ → treeRootF tree f₁ k = treeRootF tree f₂ k := by
  intro k
  induction k using Nat.strong_induction_on with
  | _ k ih =>
    intro f₁ f₂ h1 h2
    obtain ⟨a, rfl⟩ : ∃ a, f₁ = a + 1 := ⟨f₁ - 1, by omega⟩
    obtain ⟨b, rfl⟩ : ∃ b, f₂ = b + 1 := ⟨f₂ - 1, by omega⟩
    show treeRootF tree (a + 1) k = treeRootF tree (b + 1) k
    simp only [treeRootF]
    cases htk : tree k with
    | none => rfl
    | some v =>
      obtain ⟨c, p⟩ := v
      have hp : p < k := hd k c p htk
      exact ih p hp a b (by omega) (by omega)

theorem treeRoot_none {tree : NMap (LClk × Nat)} {k : Nat} (h : tree k = none) :
    treeRoot tree k = k := by
  simp only [treeRoot, treeRootF, h]

theorem treeRoot_step {tree : NMap (LClk × Nat)} (hd : EdgesDesc tree) {k : Nat}
    {c : LClk} {p : Nat} (h : tree k = some (c, p)) :
    treeRoot tree k = treeRoot tree p := by
  have hp : p < k := hd k c p h
  show treeRootF tree (k + 1) k = treeRootF tree (p + 1) p
  simp only [treeRootF, h]
  exact treeRootF_congr hd p k (p + 1) hp (by omega)

theorem EdgesDesc_mdel {m : NMap (LClk × Nat)} (hd : EdgesDesc m) (k : Nat) :
    EdgesDesc (mdel m k) := by
  intro x c p h
  by_cases hx : x = k
  · subst hx; rw [mdel_same] at h; cases h
  · rw [mdel_other _ _ _ hx] at h; exact hd x c p h

theorem CacheCoh_mdel {inval : LClkInvalidSet} {tree m : NMap (LClk × Nat)}
    (hc : CacheCoh inval tree m) (k : Nat) : CacheCoh inval tree (mdel m k) := by
  intro x c p h hf
  by_cases hx : x = k
  · subst hx; rw [mdel_same] at h; cases h
  · rw [mdel_other _ _ _ hx] at h; exact hc x c p h hf

/-- Main lemma about the `_find` loop: on a well-formed state the loop
terminates within `cursor + 1` iterations, never reports `Bot`, and returns
the root reached by following `tree` parent links, regardless of how many
stale cache entries it removes along the way; the output cache is again
well formed. -/
theorem findLoop_ok (inval : LClkInvalidSet) (tree : NMap (LClk × Nat)) (query : Nat)
    (hd : EdgesDesc tree) :
    ∀ (fuel : Nat) (cache : NMap (LClk × Nat)) (prevUpClk : LClk) (prevCursor cursor : Nat),
      EdgesDesc cache → CacheCoh inval tree cache →
      cursor < fuel → cursor ≤ prevCursor →
      treeRoot tree cursor = treeRoot tree query →
      treeRoot tree prevCursor = treeRoot tree query →
      ∃ cache2,
        findLoop inval tree query fuel cache prevUpClk prevCursor cursor
          = some (.ok (⟨treeRoot tree query, query⟩, cache2)) ∧
        EdgesDesc cache2 ∧ CacheCoh inval tree cache2 := by
  intro fuel
  induction fuel with
  | zero => intro _ _ _ cursor _ _ hlt; omega
  | succ f ih =>
    intro cache prevUpClk prevCursor cursor hcd hcc hlt hle hcur hprev
    cases hcache : cache cursor with
    | none =>
      cases htree : tree cursor with
      | none =>
        refine ⟨cache, ?_, hcd, hcc⟩
        have hroot : treeRoot tree cursor = cursor := treeRoot_none htree
        simp only [findLoop, hcache, htree]
        rw [← hcur, hroot]
      | some v =>
        obtain ⟨c2, p2⟩ := v
        have hp2 : p2 < cursor := hd cursor c2 p2 htree
        have hne : ¬ cursor = p2 := by omega
        have hr2 : treeRoot tree p2 = treeRoot tree query := by
          rw [← treeRoot_step hd htree]; exact hcur
        obtain ⟨cache2, heq, h1, h2⟩ :=
          ih cache c2 cursor p2 hcd hcc (by omega) (by omega) hr2 hcur
        refine ⟨cache2, ?_, h1, h2⟩
        simp only [findLoop, hcache, htree, if_neg hne]
        exact heq
    | some v =>
      obtain ⟨upClk, up⟩ := v
      by_cases hinv : inval.contains upClk = true
      · -- stale cache entry: it is dropped and the walk recomputes from tree
        cases htree : tree cursor with
        | none =>
          refine ⟨mdel cache cursor, ?_, EdgesDesc_mdel hcd cursor, CacheCoh_mdel hcc cursor⟩
          have hroot : treeRoot tree cursor = cursor := treeRoot_none htree
          simp only [findLoop, hcache, hinv, if_true, htree]
          rw [← hcur, hroot]
        | some v2 =>
          obtain ⟨c2, p2⟩ := v2
          have hp2 : p2 < cursor := hd cursor c2 p2 htree
          have hne : ¬ cursor = p2 := by omega
          have hr2 : treeRoot tree p2 = treeRoot tree query := by
            rw [← treeRoot_step hd htree]; exact hcur
          obtain ⟨cache2, heq, h1, h2⟩ :=
            ih (mdel cache cursor) c2 cursor p2 (EdgesDesc_mdel hcd cursor) (CacheCoh_mdel hcc cursor)
              (by omega) (by omega) hr2 hcur
          refine ⟨cache2, ?_, h1, h2⟩
          simp only [findLoop, hcache, hinv, if_true, htree, if_neg hne]
          exact heq
      · -- valid cache entry: follow the shortcut
        have hinvf : inval.contains upClk = false := by
          cases hb : inval.contains upClk
          · rfl
          · exact absurd hb hinv
        have hup : up < cursor := hcd cursor upClk up hcache
        have hne : ¬ cursor = up := by omega
        have hrup : treeRoot tree up = treeRoot tree query := by
          rw [hcc cursor upClk up hcache hinvf]; exact hcur
        by_cases hpc : prevCursor ≠ cursor
        · have hdesc2 : EdgesDesc (mset cache prevCursor (max prevUpClk upClk, up)) := by
            intro x c p h
            by_cases hx : x = prevCursor
            · subst hx; rw [mset_same] at h; cases h; omega
            · rw [mset_other _ _ _ _ hx] at h; exact hcd x c p h
          have hcoh2 : CacheCoh inval tree (mset cache prevCursor (max prevUpClk upClk, up)) := by
            intro x c p h hcf
            by_cases hx : x = prevCursor
            · subst hx; rw [mset_same] at h; cases h; rw [hrup, hprev]
            · rw [mset_other _ _ _ _ hx] at h; exact hcc x c p h hcf
          obtain ⟨cache2, heq, h1, h2⟩ :=
            ih (mset cache prevCursor (max prevUpClk upClk, up)) upClk cursor up
              hdesc2 hcoh2 (by omega) (by omega) hrup hcur
          refine ⟨cache2, ?_, h1, h2⟩
          simp only [findLoop, hcache, hinvf, Bool.false_eq_true, if_false, if_neg hne,
            if_pos hpc]
          exact heq
        · obtain ⟨cache2, heq, h1, h2⟩ :=
            ih cache prevUpClk prevCursor up hcd hcc (by omega) (by omega) hrup hprev
          refine ⟨cache2, ?_, h1, h2⟩
          simp only [findLoop, hcache, hinvf, Bool.false_eq_true, if_false, if_neg hne,
            if_neg hpc]
          exact heq

/-- `_find` on a well-formed state: never errs, returns the tree root as the
class and the query as the instance, and only the cache changes. -/
theorem find_ok (u : Unifier) (inval : LClkInvalidSet) (clk : LClk) (q : Nat)
    (hwf : UnifWF u inval) :
    ∃ u2, u.find inval clk q = .ok (⟨treeRoot u.tree q, q⟩, u2) ∧
      UnifWF u2 inval ∧ u2.root = u.root ∧ u2.next = u.next ∧ u2.prev = u.prev ∧
      u2.tree = u.tree := by
  by_cases hr : u.root q = true
  · have ht : u.tree q = none := hwf.rootsClean q hr
    have hq : treeRoot u.tree q = q := treeRoot_none ht
    refine ⟨u, ?_, hwf, rfl, rfl, rfl, rfl⟩
    simp only [Unifier.find, hr, if_true, hq]
  · obtain ⟨cache2, heq, h1, h2⟩ :=
      findLoop_ok inval u.tree q hwf.treeDesc (q + 1) u.cache clk q q
        hwf.cacheDesc hwf.cacheCoh (by omega) le_rfl rfl rfl
    refine ⟨{ u with cache := cache2 }, ?_, ⟨hwf.treeDesc, h1, hwf.rootsClean, h2⟩,
      rfl, rfl, rfl, rfl⟩
    have hrf : u.root q = false := by
      cases hb : u.root q
      · rfl
      · exact absurd hb hr
    simp only [Unifier.find, hrf, Bool.false_eq_true, if_false, heq]

/-! ## Claim C3: find and the invalid-set cache discipline -/

/-- A unifier state with a single stale cache shortcut whose stamp is *not*
in the invalid set: `cache = (2 maps-to (5, 1))`, everything else empty. -/
def uStale : Unifier :=
  { root := fun _ => false, next := mnil, prev := mnil, tree := mnil,
    cache := mset mnil 2 (5, 1) }

/-- C3 counterexample: quantified over *every* unifier state, the claim fails.
On `uStale` the cache entry for 2 carries clock 5, which is not in the (empty)
invalid set, so `_find` trusts it and returns class 1 — but the tree is empty,
so the root reached by following tree parent links from 2 is 2 itself.  (Such
states are reachable: rollback un-does `tree` entries but leaves the matching
`cache` entries, and the recovery loop never populates the invalid set.) -/
theorem find_stale_cache_counterexample :
    uStale.find LClkInvalidSet.empty 7 2 = .ok (⟨1, 2⟩, uStale) ∧
    treeRoot uStale.tree 2 = 2 ∧ (1 : Nat) ≠ 2 :=
  ⟨rfl, rfl, by norm_num⟩

/-- C3 (amended): on a unifier state whose valid cache entries agree with the
tree (and whose edges descend, roots having no tree entry), `_find` never
derives its answer from a cache entry with an invalidated stamp: any such
entry is dropped and the walk recomputes from `tree`, so the returned class
is the root reached by following tree parent links and the instance is the
original query; only the cache is mutated, preserving well-formedness. -/
theorem find_recomputes_from_tree (u : Unifier) (inval : LClkInvalidSet)
    (clk : LClk) (q : Nat) (hwf : UnifWF u inval) :
    ∃ u2, u.find inval clk q = .ok (⟨treeRoot u.tree q, q⟩, u2) ∧
      UnifWF u2 inval ∧ u2.root = u.root ∧ u2.next = u.next ∧ u2.prev = u.prev ∧
      u2.tree = u.tree :=
  find_ok u inval clk q hwf

/-- A state with a stale cache entry whose stamp (clock 1) *is* invalidated:
the tree maps 2 to parent 1 at clock 3, while the cache claims 2's root is 0
at clock 1. -/
def uInvW : Unifier :=
  { root := fun _ => false, next := mnil, prev := mnil,
    tree := mset mnil 2 (3, 1), cache := mset mnil 2 (1, 0) }

/-- Witness for `find_recomputes_from_tree` on `uInvW` with invalid set
covering `[0, 2)`: the stale shortcut to 0 is ignored and the tree root 1 is
returned with instance 2. -/
theorem find_recomputes_from_tree_witness :
    ∃ u2, uInvW.find ⟨[(0, 2)]⟩ 5 2 = .ok (⟨1, 2⟩, u2) := by
  have hwf : UnifWF uInvW ⟨[(0, 2)]⟩ := by
    refine ⟨?_, ?_, ?_, ?_⟩
    · intro k c p h
      by_cases hk : k = 2
      · subst hk
        rw [show uInvW.tree 2 = some (3, 1) from rfl] at h
        cases h; omega
      · rw [show uInvW.tree k = mset mnil 2 (3, 1) k from rfl, mset_other _ _ _ _ hk] at h
        cases h
    · intro k c p h
      by_cases hk : k = 2
      · subst hk
        rw [show uInvW.cache 2 = some (1, 0) from rfl] at h
        cases h; omega
      · rw [show uInvW.cache k = mset mnil 2 (1, 0) k from rfl, mset_other _ _ _ _ hk] at h
        cases h
    · intro k h
      exact absurd h (by simp [uInvW])
    · intro k c p h hf
      by_cases hk : k = 2
      · subst hk
        rw [show uInvW.cache 2 = some (1, 0) from rfl] at h
        cases h
        exact absurd hf (by decide)
      · rw [show uInvW.cache k = mset mnil 2 (1, 0) k from rfl, mset_other _ _ _ _ hk] at h
        cases h
  obtain ⟨u2, heq, _⟩ := find_recomputes_from_tree uInvW ⟨[(0, 2)]⟩ 5 2 hwf
  have hroot : treeRoot uInvW.tree 2 = 1 := rfl
  rw [hroot] at heq
  exact ⟨u2, heq⟩

/-! ## Claim C4: deterministic roots after unify -/

/-- Specification of the ordered-argument body of `_unify`: a successful call
returns the minimum of the two tree roots, and when the roots differ the
larger becomes a child of the smaller (tree edge stamped `clk`), the smaller
entering and the larger leaving the root set. -/
theorem unifyCore_spec (u : Unifier) (log : List LogEntry) (inval : LClkInvalidSet)
    (clk : LClk) (lq rq : Nat) (hwf : UnifWF u inval)
    (r' : Nat) (u' : Unifier) (log' : List LogEntry)
    (hcore : u.unifyCore log inval clk lq rq = .ok (r', u', log')) :
    r' = min (treeRoot u.tree lq) (treeRoot u.tree rq) ∧
    (treeRoot u.tree lq ≠ treeRoot u.tree rq →
      u'.tree (max (treeRoot u.tree lq) (treeRoot u.tree rq))
        = some (clk, min (treeRoot u.tree lq) (treeRoot u.tree rq)) ∧
      u'.root (min (treeRoot u.tree lq) (treeRoot u.tree rq)) = true ∧
      u'.root (max (treeRoot u.tree lq) (treeRoot u.tree rq)) = false) := by
  obtain ⟨v1, hf1, hwf1, _, _, _, ht1⟩ := find_ok u inval clk lq hwf
  obtain ⟨v2, hf2, hwf2, _, _, _, ht2⟩ := find_ok v1 inval clk rq hwf1
  rw [ht1] at hf2 ht2
  unfold Unifier.unifyCore at hcore
  simp only [hf1, hf2] at hcore
  by_cases heq : treeRoot u.tree lq = treeRoot u.tree rq
  · rw [if_pos heq] at hcore
    cases hcore
    exact ⟨by omega, fun hne => absurd heq hne⟩
  · rw [if_neg heq] at hcore
    by_cases hgt : treeRoot u.tree lq > treeRoot u.tree rq
    · simp only [if_pos hgt] at hcore
      simp only [Except.ok.injEq, Prod.mk.injEq] at hcore
      obtain ⟨h1, h2, h3⟩ := hcore
      subst h1
      subst h2
      have hmax : max (treeRoot u.tree lq) (treeRoot u.tree rq) = treeRoot u.tree lq := by
        omega
      have hmin : min (treeRoot u.tree lq) (treeRoot u.tree rq) = treeRoot u.tree rq := by
        omega
      rw [hmax, hmin]
      have hne2 : treeRoot u.tree lq ≠ treeRoot u.tree rq := heq
      exact ⟨rfl, fun _ => ⟨mset_same _ _ _, by simp [rooton], by simp [rooton, rootoff, hne2]⟩⟩
    · simp only [if_neg hgt] at hcore
      simp only [Except.ok.injEq, Prod.mk.injEq] at hcore
      obtain ⟨h1, h2, h3⟩ := hcore
      subst h1
      subst h2
      have hmax : max (treeRoot u.tree lq) (treeRoot u.tree rq) = treeRoot u.tree rq := by
        omega
      have hmin : min (treeRoot u.tree lq) (treeRoot u.tree rq) = treeRoot u.tree lq := by
        omega
      rw [hmax, hmin]
      have hne2 : treeRoot u.tree rq ≠ treeRoot u.tree lq := fun h => heq h.symm
      exact ⟨rfl, fun _ => ⟨mset_same _ _ _, by simp [rooton], by simp [rooton, rootoff, hne2]⟩⟩

/-- C4: on a well-formed state, a successful `unify(a, b)` returns exactly
the minimum of the two pre-state class roots `find(a).class` and
`find(b).class`; when the two old roots differ, the larger becomes a child of
the smaller: the post-state `tree` maps the larger old root to
`(clk, smaller old root)`, the smaller root is in the root set and the larger
is not. -/
theorem unify_min_root (u : Unifier) (log : List LogEntry) (inval : LClkInvalidSet)
    (clk : LClk) (a b : Nat) (ea : ENum) (ua : Unifier) (eb : ENum) (ub2 : Unifier)
    (r : Nat) (u2 : Unifier) (log2 : List LogEntry)
    (hwf : UnifWF u inval)
    (hfa : u.find inval clk a = .ok (ea, ua))
    (hfb : u.find inval clk b = .ok (eb, ub2))
    (hu : u.unify log inval clk a b = .ok (r, u2, log2)) :
    r = min ea.cls eb.cls ∧
    (ea.cls ≠ eb.cls →
      u2.tree (max ea.cls eb.cls) = some (clk, min ea.cls eb.cls) ∧
      u2.root (min ea.cls eb.cls) = true ∧
      u2.root (max ea.cls eb.cls) = false) := by
  obtain ⟨ua', hfa', _, _, _, _, _⟩ := find_ok u inval clk a hwf
  obtain ⟨ub', hfb', _, _, _, _, _⟩ := find_ok u inval clk b hwf
  rw [hfa'] at hfa
  rw [hfb'] at hfb
  have heacls : ea.cls = treeRoot u.tree a := by cases hfa; rfl
  have hebcls : eb.cls = treeRoot u.tree b := by cases hfb; rfl
  rw [heacls, hebcls]
  unfold Unifier.unify at hu
  by_cases hab : a = b
  · subst hab
    rw [if_pos rfl] at hu
    simp only [hfa'] at hu
    cases hu
    exact ⟨by omega, fun hne => absurd rfl hne⟩
  · rw [if_neg hab] at hu
    by_cases hgt : a > b
    · rw [if_pos hgt] at hu
      have h := unifyCore_spec u log inval clk b a hwf r u2 log2 hu
      have hmaxc : max (treeRoot u.tree b) (treeRoot u.tree a)
          = max (treeRoot u.tree a) (treeRoot u.tree b) := by omega
      have hminc : min (treeRoot u.tree b) (treeRoot u.tree a)
          = min (treeRoot u.tree a) (treeRoot u.tree b) := by omega
      rw [hmaxc, hminc] at h
      exact ⟨h.1, fun hne => h.2 (fun hh => hne hh.symm)⟩
    · rw [if_neg hgt] at hu
      exact unifyCore_spec u log inval clk a b hwf r u2 log2 hu

/-- The empty unifier (`FastUnifier_::default`). -/
def uEmpty : Unifier :=
  { root := fun _ => false, next := mnil, prev := mnil, tree := mnil, cache := mnil }

theorem uEmpty_wf : UnifWF uEmpty LClkInvalidSet.empty := by
  refine ⟨?_, ?_, ?_, ?_⟩
  · intro k c p h; exact absurd h (by simp [uEmpty, mnil])
  · intro k c p h; exact absurd h (by simp [uEmpty, mnil])
  · intro k h; exact absurd h (by simp [uEmpty])
  · intro k c p h; exact absurd h (by simp [uEmpty, mnil])

/-- Result of unifying the fresh handles 1 and 2 at clock 5 on the empty
unifier. -/
def unifyExOut : Except UnifierCheck (Nat × Unifier × List LogEntry) :=
  uEmpty.unify [] LClkInvalidSet.empty 5 1 2

/-- Post-state of that unify. -/
def uEx2 : Unifier :=
  match unifyExOut with
  | .ok (_, u, _) => u
  | .error _ => uEmpty

/-- Log produced by that unify. -/
def logEx2 : List LogEntry :=
  match unifyExOut with
  | .ok (_, _, l) => l
  | .error _ => []

/-- Witness for `unify_min_root`: unifying 1 and 2 on the empty unifier at
clock 5 returns root `1 = min 1 2` and hangs 2 below 1 in the tree. -/
theorem unify_min_root_witness :
    (1 : Nat) = min 1 2 ∧
    ((1 : Nat) ≠ 2 →
      uEx2.tree 2 = some (5, 1) ∧ uEx2.root 1 = true ∧ uEx2.root 2 = false) := by
  have h := unify_min_root uEmpty [] LClkInvalidSet.empty 5 1 2 ⟨1, 1⟩ uEmpty ⟨2, 2⟩ uEmpty
    1 uEx2 logEx2 uEmpty_wf rfl rfl rfl
  simpa using h

/-! ## Interpreter state (`FastInterp`, interp.rs 2223-2269)

The embedding carries the fields touched by the evaluator paths the claims
are about: the handle allocator counter (handles tracked by key, the u32 wrap
being studied separately on `SNumCtr`), the environment tables and bindings,
the registers, the undo log, the choice trace and the invalid-clock set.
Continuation references (`MemKntRef`) are only cloned and restored by these
paths, never inspected, so they are carried as opaque `Option Nat` ids. -/

/-- Integer-keyed function map (for `BTreeMap<LClk, _>` point access). -/
def IMap (α : Type) : Type := LClk → Option α

def imset {α : Type} (m : IMap α) (k : LClk) (v : α) : IMap α :=
  fun x => if x = k then some v else m x

def imdel {α : Type} (m : IMap α) (k : LClk) : IMap α :=
  fun x => if x = k then none else m x

/-- Ports (`Port_`). -/
inductive Port where
  | quiescent
  | enter
  | ret
deriving DecidableEq, Repr

/-- Result register (`ResReg_`; `Result_` also keeps a debug-only log of past
values, which we drop). -/
inductive ResReg where
  | emp
  | key (x : Nat)
  | mat (b : Bool)
deriving DecidableEq, Repr

/-- Term context (`TermContext_`). -/
inductive TermContext where
  | unifyCtx
  | matchCtx
deriving DecidableEq, Repr

/-- Table records (`Box<dyn Tabled>` contents used by the embedded paths). -/
inductive Tabled where
  | identTerm (raw : Nat)
  | litTermInt (v : Int)
  | litValInt (v : Int)
  | litValList (buf : List Nat)
deriving DecidableEq, Repr

/-- Key type of `lit_term_bind : FxHashMap<LitTerm_, SNum>` (the int case is
the one exercised here). -/
inductive LitTermKey where
  | int (v : Int)
deriving DecidableEq, Repr

def ltset (m : LitTermKey → Option Nat) (k : LitTermKey) (v : Nat) :
    LitTermKey → Option Nat :=
  fun x => if x = k then some v else m x

/-- `FastReg_`. -/
structure Reg where
  xlb : Nat
  rstClk : LClk
  tctx : TermContext
deriving DecidableEq, Repr

/-- `FastCtlReg_` (exception register modelled as an opaque optional id). -/
structure CtlReg where
  exc : Option Nat
  res : ResReg
  port : Port
deriving DecidableEq, Repr

/-- A choice-point frame (`TraceEntry_`). -/
structure TraceEntry where
  xctr : Nat
  xlim : Nat
  lastClk : LClk
  rootClk : LClk
  xlb : Nat
  reg : Reg
  ctl : CtlReg
  knt : Option Nat
deriving DecidableEq, Repr

/-- The choice trace (`FastTrace_`): frame stack plus root-clock index. -/
structure Trace where
  buf : List TraceEntry
  clkPos : IMap Nat

/-- `FastTrace_::_maybe_get` (index panic modelled as `none`). -/
def Trace.maybeGet (tr : Trace) (clk : LClk) : Option TraceEntry :=
  match tr.clkPos clk with
  | none => none
  | some pos => tr.buf.get? pos

/-- `FastTrace_::_push` (interp.rs 1849-1868); fails on a duplicate root
clock.  Also returns the pushed frame (the source immediately re-reads it via
`_maybe_get(clk).unwrap()`). -/
def Trace.push (tr : Trace) (clk : LClk) (choiceUb : Nat) (xlb : Nat) (reg : Reg)
    (ctl : CtlReg) (knt : Option Nat) : Except Unit (Trace × TraceEntry) :=
  let pos := tr.buf.length
  let te : TraceEntry :=
    { xctr := 0, xlim := choiceUb, lastClk := clk, rootClk := clk,
      xlb := xlb, reg := reg, ctl := ctl, knt := knt }
  match tr.clkPos clk with
  | some _ => .error ()
  | none => .ok ({ buf := tr.buf ++ [te], clkPos := imset tr.clkPos clk pos }, te)

/-- `FastTrace_::_pop_pos` (interp.rs 1877-1891): removes the tail frame,
checking that its stored index equals `pos`. -/
def Trace.popPos (tr : Trace) (pos : Nat) : Except Unit Trace :=
  if pos + 1 ≠ tr.buf.length then .error ()
  else
    match tr.buf.getLast? with
    | none => .error ()
    | some te =>
      match tr.clkPos te.rootClk with
      | none => .error ()
      | some opos =>
        if opos ≠ pos then .error ()
        else .ok { buf := tr.buf.dropLast, clkPos := imdel tr.clkPos te.rootClk }

/-- An unhandled interpreter internal error (`InterpCheck`; location and
message abstracted). -/
inductive Check where
  | check
deriving DecidableEq, Repr

/-- The environment pieces (`FastEnv_`) the embedded paths touch.  Raw ident
strings are represented by opaque `Nat` codes. -/
structure Env where
  identTab : NMap Nat
  termTab : NMap Tabled
  valTab : NMap Tabled
  rawIdBind : NMap Nat
  litTermBind : LitTermKey → Option Nat
  unifier : Unifier

/-- The interpreter state. -/
structure Interp where
  ctr : Nat
  env : Env
  reg : Reg
  exc : Option Nat
  res : ResReg
  port : Port
  knt : Option Nat
  log : List LogEntry
  trace : Trace
  clkinval : LClkInvalidSet

/-- `FastInterp::_fresh` at the key level (`SNumCtr::_fresh`). -/
def Interp.fresh (s : Interp) : Nat × Interp :=
  (s.ctr + 1, { s with ctr := s.ctr + 1 })

/-- `FastInterp::put_term` (interp.rs 3033-3039): insert into the term table,
then append a `PutTerm` undo entry. -/
def Interp.putTerm (s : Interp) (clk : LClk) (x : Nat) (term : Tabled) : Interp :=
  { s with
    env := { s.env with termTab := mset s.env.termTab x term },
    log := s.log ++ [⟨clk, .putTerm x⟩] }

/-- `FastInterp::put_val` (interp.rs 3042-3047). -/
def Interp.putVal (s : Interp) (clk : LClk) (x : Nat) (val : Tabled) : Interp :=
  { s with
    env := { s.env with valTab := mset s.env.valTab x val },
    log := s.log ++ [⟨clk, .putVal x⟩] }

/-- `FastInterp::put_res` (interp.rs 3058-3067): errs when the result
register is already filled (the `Mat` case is `unimplemented` in source). -/
def Interp.putRes (s : Interp) (x : Nat) : Except Check Interp :=
  match s.res with
  | .emp => .ok { s with res := .key x }
  | .key _ => .error .check
  | .mat _ => .error .check

/-- `FastInterp::_undo` (interp.rs 3081-3117).  Handled entries: `Unify`,
`BindIdent`, `PutTerm`, `PutVal`; every other entry (including `BindLitStr`)
falls into the `_undo: unimpl` catch-all and errs.  A nil previous binding is
key 0. -/
def undoEntry (env : Env) (_clk : LClk) (e : UndoEntry) : Except Check Env :=
  match e with
  | .unify st =>
    let u := env.unifier
    let u1 := u.link st.oroot st.onext
    let u2 := u1.link st.nprev st.nroot
    let u3 := { u2 with root := rooton (rootoff u2.root st.nroot) st.oroot }
    let u4 :=
      match st.otree with
      | some ot => { u3 with tree := mset u3.tree st.oroot ot }
      | none => { u3 with tree := mdel u3.tree st.oroot }
    .ok { env with unifier := u4 }
  | .bindIdent id prevX =>
    match env.identTab id with
    | none => .error .check
    | some rawId =>
      if prevX = 0 then .ok { env with rawIdBind := mdel env.rawIdBind rawId }
      else .ok { env with rawIdBind := mset env.rawIdBind rawId prevX }
  | .putTerm x =>
    match env.termTab x with
    | none => .error .check
    | some _ => .ok { env with termTab := mdel env.termTab x }
  | .putVal x =>
    match env.valTab x with
    | none => .error .check
    | some _ => .ok { env with valTab := mdel env.valTab x }
  | _ => .error .check

/-- The inner undo loop of the `Fail` arm of `interp_` (interp.rs
3331-3344): starting from the newest entry (the argument list is the log
reversed), undo and pop every entry whose clock is `≥ rst`, stopping at the
first strictly older entry. -/
def undoRev (rst : LClk) : Env → List LogEntry → Except Check (Env × List LogEntry)
  | env, [] => .ok (env, [])
  | env, e :: rest =>
    if e.clk < rst then .ok (env, e :: rest)
    else
      match undoEntry env e.clk e.val with
      | .error err => .error err
      | .ok env1 => undoRev rst env1 rest

/-- Apply the undo loop to the interpreter's log. -/
def Interp.undoLog (s : Interp) (rst : LClk) : Except Check Interp :=
  match undoRev rst s.env s.log.reverse with
  | .error e => .error e
  | .ok (env1, remRev) => .ok { s with env := env1, log := remRev.reverse }

/-! ## The Fail arm of the outer loop (`interp_`, interp.rs 3320-3411) -/

/-- Outcome of `Fail` recovery: resume the stepper (`continue 'resume`),
exhaust all frames and yield `Halt`, or abort with an internal error. -/
inductive FailOutcome where
  | resume (s : Interp)
  | halt (s : Interp)
  | err (e : Check)

/-- Invalid set of the state a recovery outcome carries. -/
def FailOutcome.invalOf : FailOutcome → Option LClkInvalidSet
  | .resume s => some s.clkinval
  | .halt s => some s.clkinval
  | .err _ => none

/-- One pass of the frame loop `for p in (0 .. trace.buf.len()).rev()`
(interp.rs 3324-3381), processing frames `p-1, p-2, …, 0`.  For each frame:
increment its counter, compute liveness (`stop`), undo the log back to the
frame's root clock, reset the allocator to the frame's saved `xlb`, set
`rst_clk` and restore the control registers, port and continuation from the
frame; if live resume, else pop the frame and try the next older one; when no
frame remains, yield `Halt`. -/
def failLoopIdx : Interp → Nat → FailOutcome
  | s, 0 => .halt s
  | s, p + 1 =>
    match s.trace.buf.get? p with
    | none => .err .check
    | some f0 =>
      let f1 := { f0 with xctr := f0.xctr + 1 }
      let s1 := { s with trace := { s.trace with buf := s.trace.buf.set p f1 } }
      match s1.undoLog f1.rootClk with
      | .error e => .err e
      | .ok s2 =>
        let s3 : Interp :=
          { s2 with
            ctr := f1.xlb,
            reg := { s2.reg with rstClk := f1.rootClk },
            exc := f1.ctl.exc,
            res := f1.ctl.res,
            port := f1.ctl.port,
            knt := f1.knt }
        if f1.xctr < f1.xlim then .resume s3
        else
          match s3.trace.popPos p with
          | .error _ => .err .check
          | .ok tr2 => failLoopIdx { s3 with trace := tr2 } p

/-- The whole `Yield_::Fail` arm. -/
def Interp.interpFail (s : Interp) : FailOutcome := failLoopIdx s s.trace.buf.length

theorem undoLog_clkinval (s : Interp) (rst : LClk) (s2 : Interp)
    (h : s.undoLog rst = .ok s2) : s2.clkinval = s.clkinval := by
  unfold Interp.undoLog at h
  cases hr : undoRev rst s.env s.log.reverse with
  | error e => rw [hr] at h; cases h
  | ok v =>
    obtain ⟨env1, remRev⟩ := v
    rw [hr] at h
    cases h
    rfl

theorem failLoopIdx_inval : ∀ (p : Nat) (s : Interp),
    (failLoopIdx s p).invalOf = some s.clkinval ∨ (failLoopIdx s p).invalOf = none := by
  intro p
  induction p with
  | zero => intro s; left; rfl
  | succ q ih =>
    intro s
    show (failLoopIdx s (q + 1)).invalOf = some s.clkinval ∨
      (failLoopIdx s (q + 1)).invalOf = none
    rw [failLoopIdx]
    cases hget : s.trace.buf.get? q with
    | none => right; rfl
    | some f0 =>
      simp only
      set f1 := { f0 with xctr := f0.xctr + 1 } with hf1
      set s1 : Interp :=
        { s with trace := { s.trace with buf := s.trace.buf.set q f1 } } with hs1
      cases hu : s1.undoLog f1.rootClk with
      | error e => right; rfl
      | ok s2 =>
        have hinv2 : s2.clkinval = s.clkinval := undoLog_clkinval s1 f1.rootClk s2 hu
        simp only
        by_cases hstop : f1.xctr < f1.xlim
        · rw [if_pos hstop]
          left
          show some s2.clkinval = some s.clkinval
          rw [hinv2]
        · rw [if_neg hstop]
          cases hpop : Trace.popPos { s2 with
              ctr := f1.xlb,
              reg := { s2.reg with rstClk := f1.rootClk },
              exc := f1.ctl.exc,
              res := f1.ctl.res,
              port := f1.ctl.port,
              knt := f1.knt }.trace q with
          | error e => right; rfl
          | ok tr2 =>
            rcases ih { { s2 with
                ctr := f1.xlb,
                reg := { s2.reg with rstClk := f1.rootClk },
                exc := f1.ctl.exc,
                res := f1.ctl.res,
                port := f1.ctl.port,
                knt := f1.knt } with trace := tr2 } with h2 | h2
            · left; exact h2.trans (congrArg some hinv2)
            · right; exact h2

/-- C1: the `Fail` recovery loop never inserts into the invalid-clock set —
`LClkInvalidSet::_insert` is never called anywhere in the interpreter — so
whatever outcome recovery produces, the resulting state's invalid set is
exactly the input one (the claimed `[root-clock, cur-clock+1)` record never
happens, and cache entries stamped inside rolled-back ranges are never
treated as stale). -/
theorem interp_fail_never_updates_invalid_set (s : Interp) :
    s.interpFail.invalOf = some s.clkinval ∨ s.interpFail.invalOf = none :=
  failLoopIdx_inval s.trace.buf.length s

/-! ## Evaluator branches: integer literal and list constructor
(`resume_`, interp.rs 3699-3720 and 3776-3785) -/

/-- The `TermCode_::IntLit` Enter branch (interp.rs 3699-3720).  `litStr` is
the raw literal-string handle and `v` the i64 already parsed from it (the
string parse itself is outside this embedding).  On a cache miss: mint a term
handle, table a `LitTerm_` (logging `PutTerm`), mint a value handle, table a
`LitVal_` (logging `PutVal`), unify the two (logging `Unify`), bind the
literal term (logging `BindLitStr` with the previous binding), and write the
result; the continuation pop is handled by the caller. -/
def Interp.intLitEnter (s : Interp) (clk : LClk) (litStr : Nat) (v : Int) :
    Except Check Interp :=
  match s.env.litTermBind (.int v) with
  | none =>
    let (x, s1) := s.fresh
    let s2 := s1.putTerm clk x (.litTermInt v)
    let (y, s3) := s2.fresh
    let s4 := s3.putVal clk y (.litValInt v)
    match s4.env.unifier.unify s4.log s4.clkinval clk x y with
    | .error _ => .error .check
    | .ok (_, u5, log5) =>
      let s5 := { s4 with env := { s4.env with unifier := u5 }, log := log5 }
      let prevX := s5.env.litTermBind (.int v)
      let s6 :=
        { s5 with env := { s5.env with litTermBind := ltset s5.env.litTermBind (.int v) x } }
      let s7 := { s6 with log := s6.log ++ [(⟨clk, .bindLitStr litStr prevX⟩ : LogEntry)] }
      match s7.putRes x with
      | .error e => .error e
      | .ok s8 => .ok { s8 with port := .ret }
  | some x =>
    match s.putRes x with
    | .error e => .error e
    | .ok s8 => .ok { s8 with port := .ret }

/-- The `TermCode_::ListCon` Enter branch (interp.rs 3776-3785): a fresh
handle, a *direct* insert of an empty `LitVal_::List` into the val table —
not via `put_val`, and with no undo entry appended — then the result write. -/
def Interp.listConEnter (s : Interp) : Except Check Interp :=
  let (x, s1) := s.fresh
  let s2 := { s1 with env := { s1.env with valTab := mset s1.env.valTab x (.litValList []) } }
  match s2.putRes x with
  | .error e => .error e
  | .ok s3 => .ok { s3 with port := .ret }

/-- A freshly constructed interpreter (empty tables, empty log and trace,
counter and clock at their initial values). -/
def interp0 : Interp :=
  { ctr := 0,
    env :=
      { identTab := mnil, termTab := mnil, valTab := mnil, rawIdBind := mnil,
        litTermBind := fun _ => none, unifier := uEmpty },
    reg := { xlb := 0, rstClk := lclkNil, tctx := .unifyCtx },
    exc := none, res := .emp, port := .enter, knt := none,
    log := [], trace := { buf := [], clkPos := fun _ => none },
    clkinval := LClkInvalidSet.empty }

/-- State after evaluating the integer literal `7` (raw string handle 9) at
clock 1 from the fresh interpreter. -/
def sIntLit : Interp :=
  match interp0.intLitEnter 1 9 7 with
  | .ok s => s
  | .error _ => interp0

/-- C2: evaluating an integer literal appends a `BindLitStr` undo entry to
the log (here as the newest entry), but `_undo` has no handler for
`BindLitStr` — it falls into the `_undo: unimpl` catch-all — so replaying the
log in reverse across the literal fails with an `InterpCheck` instead of
restoring the literal binding.  The first conjunct shows the failure is
unconditional for every `BindLitStr` entry. -/
theorem bind_lit_undo_unimplemented :
    (∀ (env : Env) (clk : LClk) (ls : Nat) (p : Option Nat),
      undoEntry env clk (.bindLitStr ls p) = .error .check) ∧
    interp0.intLitEnter 1 9 7 = .ok sIntLit ∧
    sIntLit.log.getLast? = some ⟨1, .bindLitStr 9 none⟩ ∧
    sIntLit.undoLog 0 = .error .check :=
  ⟨fun _ _ _ _ => rfl, rfl, rfl, rfl⟩

theorem putRes_ok (s : Interp) (x : Nat) (s2 : Interp) (h : s.putRes x = .ok s2) :
    s2 = { s with res := .key x } := by
  unfold Interp.putRes at h
  cases hr : s.res <;> rw [hr] at h
  · cases h; rfl
  · cases h
  · cases h

/-- C7: the `ListCon` branch inserts a value record into the val table with
*no* undo entry: for every state on which the branch succeeds, the log is
unchanged while the val table has gained the fresh entry. -/
theorem listcon_inserts_without_logging (s s3 : Interp)
    (h : s.listConEnter = .ok s3) :
    s3.log = s.log ∧ s3.env.valTab (s.ctr + 1) = some (.litValList []) := by
  unfold Interp.listConEnter at h
  cases hpr : Interp.putRes
      { s with
        ctr := s.ctr + 1,
        env := { s.env with
          valTab := mset (s.env).valTab (s.ctr + 1) (.litValList []) } }
      (s.ctr + 1) with
  | error e =>
    rw [show Interp.fresh s = (s.ctr + 1, { s with ctr := s.ctr + 1 }) from rfl] at h
    simp only [hpr] at h
    cases h
  | ok s4 =>
    rw [show Interp.fresh s = (s.ctr + 1, { s with ctr := s.ctr + 1 }) from rfl] at h
    simp only [hpr] at h
    cases h
    have h4 := putRes_ok _ _ _ hpr
    subst h4
    exact ⟨rfl, mset_same _ _ _⟩

/-- Witness for `listcon_inserts_without_logging` on the fresh interpreter:
the branch succeeds, the log stays empty, and val-table slot 1 holds the
empty list value. -/
theorem listcon_inserts_without_logging_witness :
    (match interp0.listConEnter with
      | .ok s => s
      | .error _ => interp0).log = interp0.log ∧
    (match interp0.listConEnter with
      | .ok s => s
      | .error _ => interp0).env.valTab (interp0.ctr + 1) = some (.litValList []) :=
  listcon_inserts_without_logging interp0 _ rfl

/-! ## The `choice` builtin (`ChoiceFun::__apply__`, prelude.rs 17-142) -/

/-- A literal value as returned by `get_vals` for the upper-bound argument's
class. -/
inductive LitValM where
  | noneV
  | boolV (b : Bool)
  | intV (v : Int)
  | atomV (sId : Nat)
deriving DecidableEq, Repr

/-- First integer among the argument's values (prelude.rs 39-48: iterate the
vals, take the first `Int`, ignore the rest). -/
def firstIntVal : List LitValM → Option Int
  | [] => none
  | .intV v :: _ => some v
  | _ :: rest => firstIntVal rest

/-- Parse of the optional upper bound (prelude.rs 34-49).  `tup` lists, per
tuple element, the literal values of its class (`tup[0]` is the function
itself).  The `v.try_into().unwrap()` u16 conversion panics — modelled as an
error — when the value is out of `[0, 2^16)`. -/
def choiceUbOf (tup : List (List LitValM)) : Except Unit (Option Nat) :=
  if tup.length > 1 then
    match firstIntVal (tup.getD 1 []) with
    | none => .ok none
    | some v => if 0 ≤ v ∧ v < 65536 then .ok (some v.toNat) else .error ()
  else .ok none

/-- Frame selection (prelude.rs 65-110): a non-nil `rst_clk` naming an
existing frame is a re-entry (the frame's last clock is updated in place);
otherwise a new frame is pushed with counter 0 and limit
`choice_ub.unwrap_or(u16::max_value())`; a nil `rst_clk` with an existing
frame at nil is a `bot` error. -/
def choiceSelect (clk rstClk : LClk) (tr : Trace) (choiceUb : Option Nat) (xlb : Nat)
    (reg : Reg) (ctl : CtlReg) (knt : Option Nat) : Except Unit (TraceEntry × Trace) :=
  if rstClk ≠ lclkNil then
    match tr.clkPos rstClk with
    | some pos =>
      match tr.buf.get? pos with
      | none => .error ()
      | some te =>
        let te2 := { te with lastClk := clk }
        .ok (te2, { tr with buf := tr.buf.set pos te2 })
    | none =>
      match tr.push clk (choiceUb.getD 65535) xlb reg ctl knt with
      | .error e => .error e
      | .ok (tr2, te) => .ok (te, tr2)
  else
    match tr.clkPos rstClk with
    | some _ => .error ()
    | none =>
      match tr.push clk (choiceUb.getD 65535) xlb reg ctl knt with
      | .error e => .error e
      | .ok (tr2, te) => .ok (te, tr2)

/-- Observable outcome of `choice` (prelude.rs 116-141): either the frame's
counter is written as an integer-literal result handle unified with the
return slot and `__apply__` returns `None` (evaluation resumes), or it yields
`Fail`. -/
inductive ChoiceRes where
  | value (ctr : Nat)
  | fail
deriving DecidableEq, Repr

/-- The counter test (prelude.rs 118): value iff the bound is absent or the
counter is strictly below it. -/
def choiceTest (choiceUb : Option Nat) (choiceCtr : Nat) : ChoiceRes :=
  if choiceUb = none ∨ choiceCtr < choiceUb.getD 0 then .value choiceCtr else .fail

/-- `ChoiceFun::__apply__` (prelude.rs 17-142): arity check, upper-bound
parse, frame selection, counter test.  The value branch's literal-binding and
unification side effects are summarised by the `value` outcome carrying the
written counter. -/
def choiceApply (clk rstClk : LClk) (tr : Trace) (tup : List (List LitValM)) (xlb : Nat)
    (reg : Reg) (ctl : CtlReg) (knt : Option Nat) : Except Unit (ChoiceRes × Trace) :=
  if tup.length > 2 then .error ()
  else
    match choiceUbOf tup with
    | .error e => .error e
    | .ok ub =>
      match choiceSelect clk rstClk tr ub xlb reg ctl knt with
      | .error e => .error e
      | .ok (te, tr2) => .ok (choiceTest ub te.xctr, tr2)

/-! ## Claim C6: choice counter bounds -/

/-- C6: for an invocation of `choice` whose selected frame satisfies the
push/re-entry invariants — the frame's limit is the parsed bound (default
`u16::MAX`), and the counter is below the limit (the outer loop resumes a
frame only when `xctr < xlim`) or zero (a fresh push) — the counter is
strictly below the limit whenever `choice` writes a counter value, and equals
the limit whenever it yields `Fail`. -/
theorem choice_counter_bounds (clk rstClk : LClk) (tr : Trace) (ub : Option Nat)
    (xlb : Nat) (reg : Reg) (ctl : CtlReg) (knt : Option Nat) (te : TraceEntry)
    (tr2 : Trace)
    (hsel : choiceSelect clk rstClk tr ub xlb reg ctl knt = .ok (te, tr2))
    (hlim : te.xlim = ub.getD 65535)
    (hctr : te.xctr < te.xlim ∨ te.xctr = 0) :
    (∀ c, choiceTest ub te.xctr = .value c → c = te.xctr ∧ te.xctr < te.xlim) ∧
    (choiceTest ub te.xctr = .fail → te.xctr = te.xlim) := by
  cases ub with
  | none =>
    have hv : choiceTest none te.xctr = .value te.xctr := by
      simp [choiceTest]
    constructor
    · intro c hc
      rw [hv] at hc
      cases hc
      refine ⟨rfl, ?_⟩
      rw [hlim]
      show te.xctr < 65535
      rcases hctr with h | h
      · rw [hlim] at h; exact h
      · omega
    · intro hc
      rw [hv] at hc
      cases hc
  | some u =>
    have hgd : (some u).getD 65535 = u := rfl
    rw [hgd] at hlim
    by_cases hlt : te.xctr < u
    · have hv : choiceTest (some u) te.xctr = .value te.xctr := by
        simp [choiceTest, hlt]
      constructor
      · intro c hc
        rw [hv] at hc
        cases hc
        exact ⟨rfl, by omega⟩
      · intro hc
        rw [hv] at hc
        cases hc
    · have hv : choiceTest (some u) te.xctr = .fail := by
        simp [choiceTest, hlt]
      constructor
      · intro c hc
        rw [hv] at hc
        cases hc
      · intro _
        rcases hctr with h | h
        · omega
        · omega

/-- Empty trace, default registers: inputs of the witness run. -/
def tr0 : Trace := { buf := [], clkPos := fun _ => none }

def reg0 : Reg := { xlb := 0, rstClk := lclkNil, tctx := .unifyCtx }

def ctl0 : CtlReg := { exc := none, res := .emp, port := .enter }

/-- Frame selected by a fresh `choice(2)` push at clock 1. -/
def teW : TraceEntry :=
  match choiceSelect 1 lclkNil tr0 (some 2) 0 reg0 ctl0 none with
  | .ok (te, _) => te
  | .error _ =>
    { xctr := 0, xlim := 0, lastClk := 0, rootClk := 0, xlb := 0,
      reg := reg0, ctl := ctl0, knt := none }

/-- Trace after that push. -/
def trW : Trace :=
  match choiceSelect 1 lclkNil tr0 (some 2) 0 reg0 ctl0 none with
  | .ok (_, tr) => tr
  | .error _ => tr0

/-- Witness for `choice_counter_bounds`: a fresh `choice(2)` push (counter 0,
limit 2) writes counter 0 and does not fail. -/
theorem choice_counter_bounds_witness :
    (∀ c, choiceTest (some 2) teW.xctr = .value c → c = teW.xctr ∧ teW.xctr < teW.xlim) ∧
    (choiceTest (some 2) teW.xctr = .fail → teW.xctr = teW.xlim) :=
  choice_counter_bounds 1 lclkNil tr0 (some 2) 0 reg0 ctl0 none teW trW rfl rfl
    (Or.inr rfl)

/-! ## Claim C10: choice with no parsed upper bound never fails -/

theorem getLast?_append_singleton {α : Type} (l : List α) (a : α) :
    (l ++ [a]).getLast? = some a := by
  induction l with
  | nil => rfl
  | cons x xs ih =>
    rw [List.cons_append, List.getLast?_cons, ih]
    cases xs <;> rfl

/-- C10: when no integer upper bound is parsed from the argument's values,
`choice` never yields `Fail`: the outcome is always the selected frame's
counter written as the result (however large backtracking has made it), and
a freshly pushed frame's stored limit defaults to the maximum rank
`u16::MAX = 65535`. -/
theorem choice_no_ub_never_fails (clk rstClk : LClk) (tr : Trace)
    (tup : List (List LitValM)) (xlb : Nat) (reg : Reg) (ctl : CtlReg)
    (knt : Option Nat) (res : ChoiceRes) (tr2 : Trace)
    (hub : choiceUbOf tup = .ok none)
    (happ : choiceApply clk rstClk tr tup xlb reg ctl knt = .ok (res, tr2)) :
    res ≠ .fail ∧ (∃ c, res = .value c) ∧
    (tr.clkPos rstClk = none →
      ∃ te, tr2.buf.getLast? = some te ∧ te.xlim = 65535 ∧ res = .value te.xctr) := by
  unfold choiceApply at happ
  by_cases harity : tup.length > 2
  · rw [if_pos harity] at happ; cases happ
  · rw [if_neg harity, hub] at happ
    simp only at happ
    cases hsel : choiceSelect clk rstClk tr none xlb reg ctl knt with
    | error e => rw [hsel] at happ; cases happ
    | ok v =>
      obtain ⟨te, tr2'⟩ := v
      rw [hsel] at happ
      simp only at happ
      have hres : res = choiceTest none te.xctr ∧ tr2 = tr2' := by
        cases happ; exact ⟨rfl, rfl⟩
      obtain ⟨hres1, hres2⟩ := hres
      have hv : choiceTest none te.xctr = .value te.xctr := by simp [choiceTest]
      rw [hv] at hres1
      subst hres1 hres2
      refine ⟨?_, ⟨te.xctr, rfl⟩, ?_⟩
      · intro hc; cases hc
      intro hmiss
      -- the selection necessarily pushed a fresh frame
      unfold choiceSelect at hsel
      have hpush : Trace.push tr clk ((none : Option Nat).getD 65535) xlb reg ctl knt
          = .ok (tr2, te) := by
        by_cases hnil : rstClk ≠ lclkNil
        · rw [if_pos hnil, hmiss] at hsel
          cases hp : Trace.push tr clk ((none : Option Nat).getD 65535) xlb reg ctl knt with
          | error e => rw [hp] at hsel; cases hsel
          | ok w =>
            obtain ⟨trp, tep⟩ := w
            rw [hp] at hsel
            cases hsel
            rfl
        · rw [if_neg hnil, hmiss] at hsel
          cases hp : Trace.push tr clk ((none : Option Nat).getD 65535) xlb reg ctl knt with
          | error e => rw [hp] at hsel; cases hsel
          | ok w =>
            obtain ⟨trp, tep⟩ := w
            rw [hp] at hsel
            cases hsel
            rfl
      cases hdup : tr.clkPos clk with
      | some p =>
        simp only [Trace.push, hdup] at hpush
        cases hpush
      | none =>
        simp only [Trace.push, hdup] at hpush
        cases hpush
        exact ⟨_, getLast?_append_singleton _ _, rfl, rfl⟩

/-- Outcome of a `choice()` call with no argument from the fresh state. -/
def resW10 : ChoiceRes :=
  match choiceApply 1 lclkNil tr0 [[]] 0 reg0 ctl0 none with
  | .ok (r, _) => r
  | .error _ => .fail

/-- Trace after that call. -/
def trW10 : Trace :=
  match choiceApply 1 lclkNil tr0 [[]] 0 reg0 ctl0 none with
  | .ok (_, tr) => tr
  | .error _ => tr0

/-- Witness for `choice_no_ub_never_fails`: `choice()` with no upper-bound
argument on the fresh state. -/
theorem choice_no_ub_never_fails_witness :
    resW10 ≠ ChoiceRes.fail ∧ (∃ c, resW10 = .value c) ∧
    (tr0.clkPos lclkNil = none →
      ∃ te, trW10.buf.getLast? = some te ∧ te.xlim = 65535 ∧ resW10 = .value te.xctr) :=
  choice_no_ub_never_fails 1 lclkNil tr0 [[]] 0 reg0 ctl0 none resW10 trW10 rfl rfl

end Pythia
